import Mathlib

/-!
Shallow embedding of the BatonCore plan-then-execute engine
(src/BatonCore/ctl.ts and src/BatonCore/web-automation.ts) and proofs of the
specified properties.

Modelling conventions:
* TypeScript strings are Lean `String`s (character-wise; all the strings the
  code manipulates here are ASCII, where JS UTF-16 units and Lean chars agree).
* `Map<string,string>` is an association list consulted front-to-back, with
  insertion by prepending (same observable get/set behaviour).
* Promise rejections are `Except String String` values, the error carrying the
  message; the external Stagehand capability provider and the OpenAI completion
  endpoint are parameters of the model.
* `JSON.parse`d values are `JValue` trees; the `safeParsePlan` helper (which
  wraps `JSON.parse` and a fenced-code-block regex) is abstracted as a
  parameter `parse : String → Option JValue`, `none` standing for the case in
  which both parse attempts throw.
-/

/-- Type `CommandName` from ctl.ts: `"observe" | "extract" | "act"`. -/
inductive CommandName where
  | observe
  | extract
  | act
deriving DecidableEq, Repr

/-- The literal string of a `CommandName`. -/
def CommandName.str : CommandName → String
  | .observe => "observe"
  | .extract => "extract"
  | .act => "act"

/-- Structure `PageFunction` from ctl.ts: a validated plan step. -/
structure PageFunction where
  name : CommandName
  query : String
deriving DecidableEq, Repr

-- ---------------------------------------------------------------------------
-- Character-list string helpers (JS string/regex primitives used by the code)
-- ---------------------------------------------------------------------------

/-- Whether `pat` is a leading segment of `cs` (JS `^pat` regex / `startsWith`). -/
def startsWithL (pat cs : List Char) : Bool :=
  pat == cs.take pat.length

/-- Whether `pat` occurs somewhere in `cs` (JS regex containment of a literal). -/
def hasSubL (pat : List Char) : List Char → Bool
  | [] => pat.isEmpty
  | c :: rest => startsWithL pat (c :: rest) || hasSubL pat rest

/-- String-level containment of a literal pattern. -/
def hasSubstr (s pat : String) : Bool :=
  hasSubL pat.toList s.toList

/-- String-level `startsWith` for a literal pattern. -/
def startsWithStr (s pat : String) : Bool :=
  startsWithL pat.toList s.toList

/-- Any of the literal patterns occurs in `s` (regex alternation `(a|b|c)`). -/
def hasAnySub (s : String) (pats : List String) : Bool :=
  pats.any (fun p => hasSubstr s p)

/-- A JS `\s` whitespace character (ASCII portion). -/
def isJsWs (c : Char) : Bool :=
  c = ' ' || c = '\t' || c = '\n' || c = '\r' || c = '\x0b' || c = '\x0c'

/-- JS `String.prototype.toLowerCase` on the ASCII strings this code
manipulates, character-wise. -/
def toLowerStr (s : String) : String :=
  String.mk (s.toList.map Char.toLower)

/-- JS `String.prototype.trim`: drop leading and trailing whitespace. -/
def trimStr (s : String) : String :=
  String.mk (((s.toList.dropWhile isJsWs).reverse.dropWhile isJsWs).reverse)

-- ---------------------------------------------------------------------------
-- normalizeCommandName (ctl.ts lines 220-229)
-- ---------------------------------------------------------------------------

/-- The alternation `(ensure|verify|check|confirm)` (ctl.ts line 224). -/
def observeTriggerWords : List String := ["ensure", "verify", "check", "confirm"]

/-- The alternation `(click|type|press|navigate|open|select|submit|scroll|hover)`
(ctl.ts line 225). -/
def actTriggerWords : List String :=
  ["click", "type", "press", "navigate", "open", "select", "submit", "scroll", "hover"]

/-- The alternation `(read|get|scrape|capture|grab|copy|extract)`
(ctl.ts line 226). -/
def extractTriggerWords : List String :=
  ["read", "get", "scrape", "capture", "grab", "copy", "extract"]

/-- The body of `normalizeCommandName` applied to the already lowercased and
trimmed string `n` (the if/regex chain of ctl.ts lines 222-228). -/
def normalizeCore (n : String) : Option CommandName :=
  if n = "observe" then some .observe
  else if n = "extract" then some .extract
  else if n = "act" then some .act
  else if startsWithStr n "wait" || hasAnySub n observeTriggerWords then
    some .observe
  else if hasAnySub n actTriggerWords then
    some .act
  else if hasAnySub n extractTriggerWords then
    some .extract
  else none

/-- Function `normalizeCommandName` from ctl.ts: lowercase and trim, then match the
synonym rules in order. -/
def normalizeCommandName (name : String) : Option CommandName :=
  normalizeCore (trimStr (toLowerStr name))

-- ---------------------------------------------------------------------------
-- slugify / z / screenshot filenames (ctl.ts lines 258-270, 469-479)
-- ---------------------------------------------------------------------------

/-- Lowercase ASCII letter or digit (the JS character class `[a-z0-9]`). -/
def isLowerAlnum (c : Char) : Bool :=
  ('a' ≤ c && c ≤ 'z') || ('0' ≤ c && c ≤ '9')

/-- One global-replace pass of the regex `https?:\/\/` with `""`:
delete every (non-overlapping, left-to-right) occurrence of `http://` or
`https://`. -/
def stripHttp : List Char → List Char
  | [] => []
  | 'h' :: 't' :: 't' :: 'p' :: 's' :: ':' :: '/' :: '/' :: rest => stripHttp rest
  | 'h' :: 't' :: 't' :: 'p' :: ':' :: '/' :: '/' :: rest => stripHttp rest
  | c :: rest => c :: stripHttp rest

/-- Worker for the global replace of `[^a-z0-9]+` with `"-"`: `inRun` records
whether the previous character was part of a non-alphanumeric run whose
hyphen has already been emitted. -/
def collapseGo : Bool → List Char → List Char
  | _, [] => []
  | inRun, c :: rest =>
    if isLowerAlnum c then c :: collapseGo false rest
    else if inRun then collapseGo true rest
    else '-' :: collapseGo true rest

/-- Global replace of the regex `[^a-z0-9]+` with `"-"`: every maximal run of
characters outside `[a-z0-9]` becomes one hyphen. -/
def collapseNonAlnum (cs : List Char) : List Char :=
  collapseGo false cs

/-- Global replace of `^-+|-+$` with `""`: drop leading and trailing hyphens. -/
def trimDashes (cs : List Char) : List Char :=
  ((cs.dropWhile (fun c => c == '-')).reverse.dropWhile (fun c => c == '-')).reverse

/-- Function `slugify` from ctl.ts: lowercase, delete URL schemes, collapse non
alphanumerics to hyphens, trim hyphens, cut to `maxLen`. -/
def slugify (input : String) (maxLen : Nat := 60) : String :=
  String.mk ((trimDashes (collapseNonAlnum (stripHttp (input.toList.map Char.toLower)))).take maxLen)

/-- Function `z` from ctl.ts: `n.toString().padStart(width, "0")`. -/
def z (n : Nat) (width : Nat := 2) : String :=
  String.mk (List.replicate (width - (Nat.repr n).length) '0' ++ (Nat.repr n).toList)

/-- The screenshot file name built by `PageNavigator.captureStepScreenshot`
(ctl.ts line 471). -/
def screenshotFileName (stepIndex : Nat) (step : PageFunction) : String :=
  z stepIndex 2 ++ "-" ++ step.name.str ++ "-" ++ slugify step.query ++ ".jpg"

-- ---------------------------------------------------------------------------
-- JSON-ish runtime values and validatePlan (ctl.ts lines 232-255)
-- ---------------------------------------------------------------------------

/-- A JavaScript runtime value as far as `validatePlan` can observe it:
the result of `JSON.parse` plus `undefined` (the value of a missing field). -/
inductive JValue where
  | undefined
  | null
  | bool (b : Bool)
  | num (n : Int)
  | str (s : String)
  | arr (items : List JValue)
  | obj (fields : List (String × JValue))

/-- JS truthiness (`!v` is `!jTruthy v`).  `NaN` is not modelled. -/
def jTruthy : JValue → Bool
  | .undefined => false
  | .null => false
  | .bool b => b
  | .num n => n != 0
  | .str s => s != ""
  | .arr _ => true
  | .obj _ => true

/-- The JS test `typeof v === "object"` (true for `null`, arrays and plain objects). -/
def jTypeofObject : JValue → Bool
  | .null => true
  | .arr _ => true
  | .obj _ => true
  | _ => false

/-- The JS test `Array.isArray(v)`. -/
def jIsArray : JValue → Bool
  | .arr _ => true
  | _ => false

/-- JS property access `v[key]`: the last binding wins (the semantics of
duplicate keys in `JSON.parse`); missing fields and non-objects give
`undefined`.  (Array index properties are not modelled: the code only reads
named fields.) -/
def jGet (v : JValue) (key : String) : JValue :=
  match v with
  | .obj fields =>
    match fields.reverse.find? (fun p => p.1 == key) with
    | some p => p.2
    | none => .undefined
  | _ => .undefined

/-- The two errors `validatePlan` can throw: the top-level shape error
(ctl.ts line 234) and the per-step error carrying the offending index
(lines 238, 241, 246). -/
inductive PlanError where
  | invalidShape
  | invalidStep (idx : Nat)
deriving DecidableEq, Repr

/-- Exact membership test `name === "observe" || name === "extract" ||
name === "act"` for a string, as a parse. -/
def parseCommand (s : String) : Option CommandName :=
  if s = "observe" then some .observe
  else if s = "extract" then some .extract
  else if s = "act" then some .act
  else none

/-- The body of the `map` callback of `validatePlan` (ctl.ts lines 236-252)
for the element `step` at index `idx`. -/
def validateStep (idx : Nat) (step : JValue) : Except PlanError PageFunction :=
  if !(jTruthy step && jTypeofObject step) then .error (.invalidStep idx)
  else
    match jGet step "query" with
    | .str qs =>
      if qs = "" then .error (.invalidStep idx)
      else
        match jGet step "name" with
        | .str ns =>
          match parseCommand ns with
          | some k => .ok ⟨k, qs⟩
          | none =>
            match normalizeCommandName ns with
            | some k => .ok ⟨k, qs⟩
            | none => .error (.invalidStep idx)
        | _ => .error (.invalidStep idx)
    | _ => .error (.invalidStep idx)

/-- The indexed `map` over the plan array; the callback throw aborts at the
first offending element. -/
def validateSteps (idx : Nat) : List JValue → Except PlanError (List PageFunction)
  | [] => .ok []
  | s :: rest => do
    let p ← validateStep idx s
    let ps ← validateSteps (idx + 1) rest
    .ok (p :: ps)

/-- Function `validatePlan` from ctl.ts: shape check then per-step validation. -/
def validatePlan (raw : JValue) : Except PlanError (List PageFunction) :=
  if !(jTruthy raw && jTypeofObject raw && jIsArray (jGet raw "plan")) then
    .error .invalidShape
  else
    match jGet raw "plan" with
    | .arr items => validateSteps 0 items
    | _ => .error .invalidShape

-- ---------------------------------------------------------------------------
-- Stagehand provider, invokeStagehand, execute (ctl.ts lines 421-467)
-- ---------------------------------------------------------------------------

/-- The `Stagehand` capability surface.  A call either resolves with a string
or rejects; the rejection carries the error message
(`(err as Error).message || String(err)`). -/
structure StagehandM where
  observe : String → Except String String
  extract : String → Except String String
  act : String → Except String String

/-- The `switch (name)` dispatch inside `invokeStagehand`. -/
def shCall (sh : StagehandM) : CommandName → String → Except String String
  | .observe, q => sh.observe q
  | .extract, q => sh.extract q
  | .act, q => sh.act q

/-- One escaped character of `JSON.stringify` on a string. -/
def jsonEscapeChar (c : Char) : String :=
  if c = '"' then "\\\""
  else if c = '\\' then "\\\\"
  else if c = '\n' then "\\n"
  else if c = '\r' then "\\r"
  else if c = '\t' then "\\t"
  else String.singleton c

/-- The `JSON.stringify` encoding of a string value. -/
def jsonString (s : String) : String :=
  "\"" ++ String.join (s.toList.map jsonEscapeChar) ++ "\""

/-- The value of `JSON.stringify` on the wrapper object with single field `error` holding `msg`: the error payload a caught rejection is
serialized into (ctl.ts lines 462-466). -/
def errorPayload (msg : String) : String :=
  "\x7b\"error\":" ++ jsonString msg ++ "\x7d"

/-- Method `PageNavigator.invokeStagehand`: dispatch on the command name and turn a
rejection into the serialized error payload. -/
def invokeStagehand (sh : StagehandM) (name : CommandName) (query : String) : String :=
  match shCall sh name query with
  | .ok s => s
  | .error e => errorPayload e

/-- The loop body of `PageNavigator.execute` (ctl.ts lines 425-436), with the
1-based step ordinal threaded through.  `cap i step` is the screenshot
collaborator (`captureStepScreenshot`); its result is only logged and cannot
influence the outputs. -/
def executeSteps (sh : StagehandM) (cap : Nat → PageFunction → Option String) :
    Nat → List PageFunction → List String
  | _, [] => []
  | i, step :: rest =>
    let res := invokeStagehand sh step.name step.query
    let _saved := cap (i + 1) step
    res :: executeSteps sh cap (i + 1) rest

/-- Method `PageNavigator.execute`: run the plan in order, one output per step. -/
def execute (sh : StagehandM) (cap : Nat → PageFunction → Option String)
    (plan : List PageFunction) : List String :=
  executeSteps sh cap 0 plan

-- ---------------------------------------------------------------------------
-- The planning-session read cache (ctl.ts lines 309-312, 367-394)
-- ---------------------------------------------------------------------------

/-- The mutable state of one planning session that the tool-call handler
touches: the `cache` map and the `clearCacheBeforeNextRead` flag. -/
structure CacheState where
  cache : List (String × String)
  pending : Bool
deriving DecidableEq, Repr

/-- The cache key `` `${validName}::${query}` ``. -/
def cacheKey (k : CommandName) (q : String) : String :=
  k.str ++ "::" ++ q

/-- The result of handling one observe/extract/act tool call during planning:
the updated session state, the payload appended to the transcript, and
whether the capability provider was actually invoked. -/
structure StepRes where
  state : CacheState
  payload : String
  invoked : Bool
deriving DecidableEq, Repr

/-- The per-tool-call cache logic of `PageNavigator.plan`
(ctl.ts lines 367-401): lazy invalidation on the first read after an act,
cache lookup for reads, provider invocation on a miss, cache update for reads
and pending-invalidation marking for acts.  `provider` is
`invokeStagehand` partially applied (rejections already serialized). -/
def stagehandStep (provider : CommandName → String → String)
    (st : CacheState) (k : CommandName) (q : String) : StepRes :=
  let key := cacheKey k q
  -- Clear cache at first read after an act:
  let st1 : CacheState :=
    if (k = .observe || k = .extract) && st.pending then ⟨[], false⟩ else st
  -- Serve cached reads if available:
  match (k = .observe || k = .extract) && (st1.cache.lookup key).isSome,
        st1.cache.lookup key with
  | true, some cached => ⟨st1, cached, false⟩
  | _, _ =>
    let result := provider k q
    if k = .act then
      ⟨⟨st1.cache, true⟩, result, true⟩
    else
      ⟨⟨(key, result) :: st1.cache, st1.pending⟩, result, true⟩

-- ---------------------------------------------------------------------------
-- The negotiation loop PageNavigator.plan (ctl.ts lines 301-418)
-- ---------------------------------------------------------------------------

/-- One tool call of an assistant message, with its arguments already
`JSON.parse`d (an absent/empty `arguments` string parses to the empty
object). -/
structure ToolCall where
  id : String
  name : String
  args : JValue

/-- One completion message as the loop consumes it: optional free-form text
content and a (possibly empty) list of tool calls. -/
structure ModelMsg where
  content : Option String
  toolCalls : List ToolCall

/-- A transcript entry (the `messages` array). -/
inductive Msg where
  | system (content : String)
  | user (content : String)
  | assistantCalls (tcs : List ToolCall)
  | assistantText (content : String)
  | tool (id name content : String)

/-- The access `args.query ?? ""` under the TS-declared type of `query` (string). -/
def getQuery (args : JValue) : String :=
  match jGet args "query" with
  | .str s => s
  | _ => ""

/-- An ASCII apostrophe, written as a code point to keep it out of string
literals. -/
def squote : String := String.singleton (Char.ofNat 39)

/-- The tool payload `{"error":"Unknown tool BAD."}` (with BAD quoted in
single quotes) pushed for an unrecognized tool name (ctl.ts line 362). -/
def unknownToolPayload (fnName : String) : String :=
  "\x7b\"error\":\"Unknown tool " ++ squote ++ fnName ++ squote ++ ".\"\x7d"

/-- The outcome of processing the tool calls of one round. -/
inductive RoundRes where
  | finalized (p : List PageFunction)
  | failed (e : PlanError)
  | next (st : CacheState) (msgs : List Msg)

/-- The `for (const tc of toolCalls)` loop of `plan` (ctl.ts lines 338-402):
a `finalize_plan` call validates and returns (or throws); an unrecognized
name appends an error payload; observe/extract/act go through the cache
logic of `stagehandStep`, appending the payload as a tool message. -/
def processCalls (provider : CommandName → String → String) :
    CacheState → List Msg → List ToolCall → RoundRes
  | st, msgs, [] => .next st msgs
  | st, msgs, tc :: rest =>
    if tc.name = "finalize_plan" then
      match validatePlan tc.args with
      | .ok p => .finalized p
      | .error e => .failed e
    else
      match parseCommand (toLowerStr tc.name) with
      | none =>
        processCalls provider st
          (msgs ++ [Msg.tool tc.id tc.name (unknownToolPayload tc.name)]) rest
      | some k =>
        let r := stagehandStep provider st k (getQuery tc.args)
        processCalls provider r.state
          (msgs ++ [Msg.tool tc.id k.str r.payload]) rest

/-- How one call to `plan` can end. -/
inductive PlanOutcome where
  | ok (p : List PageFunction)
  | planError (e : PlanError)
  | parseError
  | noMessage
  | exhausted
deriving DecidableEq, Repr

/-- The negotiation loop of `PageNavigator.plan` (ctl.ts lines 314-417),
with `fuel` many rounds left out of the fixed budget of 16.
`oracle i` is the completion the model returns in round `i` (`none` models a
completion with no message, line 325); `parse` abstracts `safeParsePlan`
(`none` = both parse attempts threw, so the call to it throws);
`provider` is the catching `invokeStagehand` wrapper over the capability
provider. -/
def planGo (parse : String → Option JValue) (provider : CommandName → String → String)
    (oracle : Nat → Option ModelMsg) :
    Nat → Nat → CacheState → List Msg → PlanOutcome
  | 0, _, _, _ => .exhausted
  | fuel + 1, iter, st, msgs =>
    match oracle iter with
    | none => .noMessage
    | some m =>
      if !m.toolCalls.isEmpty then
        match processCalls provider st (msgs ++ [Msg.assistantCalls m.toolCalls]) m.toolCalls with
        | .finalized p => .ok p
        | .failed e => .planError e
        | .next st1 msgs1 => planGo parse provider oracle fuel (iter + 1) st1 msgs1
      else
        match m.content with
        | some c =>
          if trimStr c ≠ "" then
            -- Fallback path: try to parse the free-form content as a plan.
            match parse c with
            | some v =>
              match validatePlan v with
              | .ok p => .ok p
              | .error e => .planError e
            | none => .parseError
          else
            planGo parse provider oracle fuel (iter + 1) st (msgs ++ [Msg.assistantText c])
        | none =>
          planGo parse provider oracle fuel (iter + 1) st (msgs ++ [Msg.assistantText ""])

/-- The planner system prompt (ctl.ts lines 132-170).  Inert natural-language
data: no theorem depends on its text, which is abridged here. -/
def plannerSystemPrompt : String :=
  "You are an AI Brain that converts user requests into natural language web automation steps."

/-- The planner user prompt (ctl.ts lines 172-198), abridged likewise. -/
def plannerUserPrompt (task : String) : String :=
  "User Request: \"" ++ task ++ "\" Convert this user request into a step-by-step plan."

/-- Method `PageNavigator.plan`: seed the transcript, start with an empty cache and a
cleared pending-invalidation flag, and run up to 16 rounds. -/
def planModel (parse : String → Option JValue) (provider : CommandName → String → String)
    (oracle : Nat → Option ModelMsg) (task : String) : PlanOutcome :=
  planGo parse provider oracle 16 0 ⟨[], false⟩
    [Msg.system plannerSystemPrompt, Msg.user (plannerUserPrompt task)]

-- ---------------------------------------------------------------------------
-- extractFinalOutput (web-automation.ts lines 263-304)
-- ---------------------------------------------------------------------------

/-- Drop leading JS whitespace (`\s*` at the current position). -/
def dropWsL (cs : List Char) : List Char :=
  cs.dropWhile isJsWs

/-- Model of `.replace(/^LABEL\s*/, "")` for a literal label. -/
def stripLabel (label : String) (cs : List Char) : List Char :=
  if startsWithL label.toList cs then dropWsL (cs.drop label.toList.length) else cs

/-- Model of `.replace(/^EXTRACTED\([^)]+\)\s*=>\s*/, "")`. -/
def stripExtractedTag (cs : List Char) : List Char :=
  if startsWithL "EXTRACTED(".toList cs then
    let rest := cs.drop 10
    let inner := rest.takeWhile (fun c => c ≠ ')')
    if inner.length = 0 then cs
    else
      match rest.drop inner.length with
      | ')' :: tail =>
        match dropWsL tail with
        | '=' :: '>' :: tail2 => dropWsL tail2
        | _ => cs
      | _ => cs
  else cs

/-- The prefix-stripping chain of `extractFinalOutput`
(web-automation.ts lines 277-283) followed by `.trim()`. -/
def cleanOutput (s : String) : String :=
  trimStr (String.mk
    (stripLabel "High/Low temperatures:"
      (stripLabel "Current temperature:"
        (stripLabel "Headline:"
          (stripLabel "Found text content:"
            (stripExtractedTag s.toList))))))

/-- The meaningfulness test on the cleaned output
(`cleanOutput && cleanOutput.length > 10 && !cleanOutput.includes('(not found')`,
line 286). -/
def meaningfulClean (clean : String) : Bool :=
  clean ≠ "" && clean.length > 10 && !hasSubstr clean "(not found"

/-- The fallback filter on raw outputs (web-automation.ts lines 292-295). -/
def meaningfulFallback (o : String) : Bool :=
  hasSubstr o "NAVIGATED(" ||
    (o.length > 20 && !hasSubstr o "ACTION_OK" && !hasSubstr o "Observed:")

/-- The final fallback sentence (web-automation.ts line 302). -/
def fallbackSentence : String :=
  "Task completed successfully - no specific content extracted"

/-- The fallback scan over all outputs (web-automation.ts lines 292-302). -/
def fallbackOutput (outputs : List String) : String :=
  match (outputs.filter meaningfulFallback).getLast? with
  | some o => o
  | none => fallbackSentence

/-- Function `extractFinalOutput` from web-automation.ts: pair steps with their
outputs, keep the Extract steps, reverse (most recent first), and consider
the head; if its cleaned output is meaningful return it, otherwise fall back.
(The step/output pairing uses `outputs[index]`; `plan` and `outputs` have
equal length at every call site, which `zip` reflects.) -/
def extractFinalOutput (plan : List PageFunction) (outputs : List String) : String :=
  let extractSteps := ((plan.zip outputs).filter (fun p => p.1.name = .extract)).reverse
  match extractSteps with
  | [] => fallbackOutput outputs
  | lastExtract :: _ =>
    let clean := cleanOutput lastExtract.2
    if meaningfulClean clean then clean else fallbackOutput outputs

-- ---------------------------------------------------------------------------
-- Theorems
-- ---------------------------------------------------------------------------

/-- C8: `normalizeCommandName` is deterministic (a pure Lean function),
lowercases and trims its input (it factors through `s.toLower.trim`), and
applies its rules in a fixed order with the first match winning: exact
canonical names, then `wait` prefix or an observe-trigger occurrence (→
observe), then an act verb occurrence (→ act), then an extract verb
occurrence (→ extract), otherwise `none`.  Consequently a normalized string
matching both an observe trigger and an act verb yields `observe`. -/
theorem normalizeCommandName_rule_order (s n : String) :
    normalizeCommandName s = normalizeCore (trimStr (toLowerStr s))
    ∧ (trimStr (toLowerStr s) = n →
        ((n = "observe" → normalizeCommandName s = some CommandName.observe)
        ∧ (n = "extract" → normalizeCommandName s = some CommandName.extract)
        ∧ (n = "act" → normalizeCommandName s = some CommandName.act)
        ∧ (¬(n = "observe" ∨ n = "extract" ∨ n = "act") →
            ((startsWithStr n "wait" || hasAnySub n observeTriggerWords) = true →
              normalizeCommandName s = some CommandName.observe)
            ∧ ((startsWithStr n "wait" || hasAnySub n observeTriggerWords) = false →
                (hasAnySub n actTriggerWords = true →
                  normalizeCommandName s = some CommandName.act)
                ∧ (hasAnySub n actTriggerWords = false →
                    (hasAnySub n extractTriggerWords = true →
                      normalizeCommandName s = some CommandName.extract)
                    ∧ (hasAnySub n extractTriggerWords = false →
                        normalizeCommandName s = none)))))) := by
  have hs : ∀ m, trimStr (toLowerStr s) = m → normalizeCommandName s = normalizeCore m := by
    intro m hm; rw [normalizeCommandName, hm]
  refine ⟨rfl, fun hn => ⟨?_, ?_, ?_, ?_⟩⟩
  · intro h; rw [hs n hn, h]; simp [normalizeCore]
  · intro h; rw [hs n hn, h]; simp [normalizeCore]
  · intro h; rw [hs n hn, h]; simp [normalizeCore]
  · intro hc
    push_neg at hc
    obtain ⟨h1, h2, h3⟩ := hc
    refine ⟨?_, ?_⟩
    · intro hw; rw [hs n hn]; simp [normalizeCore, h1, h2, h3, hw]
    · intro hw
      refine ⟨?_, ?_⟩
      · intro ha; rw [hs n hn]; simp [normalizeCore, h1, h2, h3, hw, ha]
      · intro ha
        refine ⟨?_, ?_⟩
        · intro he; rw [hs n hn]; simp [normalizeCore, h1, h2, h3, hw, ha, he]
        · intro he; rw [hs n hn]; simp [normalizeCore, h1, h2, h3, hw, ha, he]

/-- Witness for C8: a name containing both the observe trigger `check` and the
act verb `click` normalizes to observe. -/
theorem normalizeCommandName_rule_order_witness :
    normalizeCommandName "Check and Click" = some CommandName.observe := by
  have h := (normalizeCommandName_rule_order "Check and Click" "check and click").2 (by decide)
  exact (h.2.2.2 (by decide)).1 (by decide)

/-- C9, counterexample: the claim says every string containing `wait`
normalizes to observe; but the code only matches `wait` as a prefix:
`"kawait"` contains `wait` yet normalizes to `none`. -/
theorem normalize_contains_wait_cex :
    hasSubstr "kawait" "wait" = true ∧ normalizeCommandName "kawait" = none := by
  decide

/-- C9, amended: on the lowercased/trimmed form `n` of a non-canonical
input: a `wait` prefix or an ensure/verify/check/confirm occurrence gives
observe; otherwise an act-verb occurrence gives act; otherwise an
extract-verb occurrence gives extract; with no trigger at all the result is
`none`. -/
theorem normalize_trigger_classification (s n : String) :
    trimStr (toLowerStr s) = n → ¬(n = "observe" ∨ n = "extract" ∨ n = "act") →
    (((startsWithStr n "wait" = true ∨ hasAnySub n observeTriggerWords = true) →
        normalizeCommandName s = some CommandName.observe)
    ∧ (startsWithStr n "wait" = false → hasAnySub n observeTriggerWords = false →
        hasAnySub n actTriggerWords = true →
        normalizeCommandName s = some CommandName.act)
    ∧ (startsWithStr n "wait" = false → hasAnySub n observeTriggerWords = false →
        hasAnySub n actTriggerWords = false → hasAnySub n extractTriggerWords = true →
        normalizeCommandName s = some CommandName.extract)
    ∧ (startsWithStr n "wait" = false → hasAnySub n observeTriggerWords = false →
        hasAnySub n actTriggerWords = false → hasAnySub n extractTriggerWords = false →
        normalizeCommandName s = none)) := by
  intro hn hcanon
  have hs : normalizeCommandName s = normalizeCore n := by
    rw [normalizeCommandName, hn]
  push_neg at hcanon
  obtain ⟨h1, h2, h3⟩ := hcanon
  refine ⟨?_, ?_, ?_, ?_⟩
  · rintro (hw | hw) <;> rw [hs] <;> simp [normalizeCore, h1, h2, h3, hw]
  · intro hw ho ha; rw [hs]; simp [normalizeCore, h1, h2, h3, hw, ho, ha]
  · intro hw ho ha he; rw [hs]; simp [normalizeCore, h1, h2, h3, hw, ho, ha, he]
  · intro hw ho ha he; rw [hs]; simp [normalizeCore, h1, h2, h3, hw, ho, ha, he]

/-- Witness for the amended C9: a phrase containing the extract verb `scrape`
and no observe/act trigger normalizes to extract. -/
theorem normalize_trigger_classification_witness :
    normalizeCommandName "Scrape the page" = some CommandName.extract := by
  have h := normalize_trigger_classification "Scrape the page" "scrape the page"
    (by decide) (by decide)
  exact h.2.2.1 (by decide) (by decide) (by decide) (by decide)

theorem mem_collapseGo (l : List Char) :
    ∀ (b : Bool), ∀ c ∈ collapseGo b l, isLowerAlnum c = true ∨ c = '-' := by
  induction l with
  | nil => intro b c hc; simp [collapseGo] at hc
  | cons a rest ih =>
    intro b d hd
    rw [collapseGo] at hd
    by_cases h : isLowerAlnum a = true
    · rw [if_pos h, List.mem_cons] at hd
      rcases hd with hd | hd
      · left; rw [hd]; exact h
      · exact ih false d hd
    · rw [if_neg h] at hd
      cases b with
      | true =>
        rw [if_pos rfl] at hd
        exact ih true d hd
      | false =>
        rw [if_neg Bool.false_ne_true, List.mem_cons] at hd
        rcases hd with hd | hd
        · right; exact hd
        · exact ih true d hd

theorem mem_collapseNonAlnum (l : List Char) :
    ∀ c ∈ collapseNonAlnum l, isLowerAlnum c = true ∨ c = '-' := by
  intro c hc
  exact mem_collapseGo l false c hc

theorem mem_of_mem_dropWhile (p : Char → Bool) (l : List Char) :
    ∀ c ∈ l.dropWhile p, c ∈ l := by
  induction l with
  | nil => simp
  | cons a rest ih =>
    intro c hc
    rw [List.dropWhile_cons] at hc
    by_cases hp : p a = true
    · simp only [hp, if_true] at hc
      exact List.mem_cons_of_mem a (ih c hc)
    · simp only [hp, if_false] at hc
      exact hc

theorem mem_of_mem_trimDashes (l : List Char) :
    ∀ c ∈ trimDashes l, c ∈ l := by
  intro c hc
  unfold trimDashes at hc
  rw [List.mem_reverse] at hc
  have h1 := mem_of_mem_dropWhile _ _ c hc
  rw [List.mem_reverse] at h1
  exact mem_of_mem_dropWhile _ _ c h1

theorem toDigitsCore_digits :
    ∀ (fuel n : Nat) (ds : List Char),
      (∀ c ∈ ds, ('0' ≤ c ∧ c ≤ '9')) →
      ∀ c ∈ Nat.toDigitsCore 10 fuel n ds, ('0' ≤ c ∧ c ≤ '9') := by
  intro fuel
  induction fuel with
  | zero => intro n ds h c hc; rw [Nat.toDigitsCore] at hc; exact h c hc
  | succ fuel ih =>
    intro n ds h c hc
    have hdig : ('0' ≤ Nat.digitChar (n % 10) ∧ Nat.digitChar (n % 10) ≤ '9') := by
      have hm : n % 10 < 10 := Nat.mod_lt _ (by norm_num)
      have : n % 10 = 0 ∨ n % 10 = 1 ∨ n % 10 = 2 ∨ n % 10 = 3 ∨ n % 10 = 4 ∨
          n % 10 = 5 ∨ n % 10 = 6 ∨ n % 10 = 7 ∨ n % 10 = 8 ∨ n % 10 = 9 := by omega
      rcases this with h | h | h | h | h | h | h | h | h | h <;> rw [h] <;> decide
    rw [Nat.toDigitsCore] at hc
    by_cases hz : n / 10 = 0
    · rw [if_pos hz, List.mem_cons] at hc
      rcases hc with hc | hc
      · rw [hc]; exact hdig
      · exact h c hc
    · rw [if_neg hz] at hc
      refine ih (n / 10) _ ?_ c hc
      intro d hd
      rw [List.mem_cons] at hd
      rcases hd with hd | hd
      · rw [hd]; exact hdig
      · exact h d hd

theorem repr_digits (n : Nat) : ∀ c ∈ (Nat.repr n).toList, ('0' ≤ c ∧ c ≤ '9') := by
  intro c hc
  have heq : (Nat.repr n).toList = Nat.toDigits 10 n := rfl
  rw [heq, Nat.toDigits] at hc
  exact toDigitsCore_digits _ _ _ (by simp) c hc

theorem mem_z_digits (n width : Nat) : ∀ c ∈ (z n width).toList, ('0' ≤ c ∧ c ≤ '9') := by
  intro c hc
  have hc2 : c ∈ List.replicate (width - (Nat.repr n).length) '0' ++ (Nat.repr n).toList := hc
  rcases List.mem_append.mp hc2 with h | h
  · have := List.eq_of_mem_replicate h
    rw [this]; decide
  · exact repr_digits n c h

/-- C10: `slugify` with its default bound returns a string of length at
most 60 whose characters are all lowercase ASCII letters, digits or hyphens;
consequently every screenshot file name
`<zero-padded ordinal>-<step name>-<slug>.jpg` built by
`captureStepScreenshot` contains only characters in `[a-z0-9-.]`. -/
theorem slugify_filename_charset (s : String) (i : Nat) (step : PageFunction) :
    (slugify s).length ≤ 60
    ∧ (∀ c ∈ (slugify s).toList, isLowerAlnum c = true ∨ c = '-')
    ∧ (∀ c ∈ (screenshotFileName i step).toList,
        isLowerAlnum c = true ∨ c = '-' ∨ c = '.') := by
  have hslug : ∀ (t : String), (∀ c ∈ (slugify t).toList, isLowerAlnum c = true ∨ c = '-') := by
    intro t c hc
    have hc1 : c ∈ (trimDashes (collapseNonAlnum (stripHttp (t.toList.map Char.toLower)))).take 60 := hc
    have hc2 := List.take_subset 60 _ hc1
    have hc3 := mem_of_mem_trimDashes _ c hc2
    exact mem_collapseNonAlnum _ c hc3
  refine ⟨?_, hslug s, ?_⟩
  · show ((trimDashes (collapseNonAlnum (stripHttp (s.toList.map Char.toLower)))).take 60).length ≤ 60
    rw [List.length_take]
    omega
  · intro c hc
    have hsplit : (screenshotFileName i step).toList =
        (z i 2).toList ++ "-".toList ++ step.name.str.toList ++ "-".toList ++
          (slugify step.query).toList ++ ".jpg".toList := rfl
    rw [hsplit] at hc
    simp only [List.mem_append] at hc
    rcases hc with ((((hc | hc) | hc) | hc) | hc) | hc
    · left
      have hd := mem_z_digits i 2 c hc
      simp only [isLowerAlnum, Bool.or_eq_true, Bool.and_eq_true, decide_eq_true_eq]
      exact Or.inr hd
    · simp only [String.toList, List.mem_singleton] at hc
      exact Or.inr (Or.inl hc)
    · left
      rcases step with ⟨nm, q⟩
      cases nm <;> simp only [CommandName.str] at hc
      · exact (by decide : ∀ d ∈ "observe".toList, isLowerAlnum d = true) c hc
      · exact (by decide : ∀ d ∈ "extract".toList, isLowerAlnum d = true) c hc
      · exact (by decide : ∀ d ∈ "act".toList, isLowerAlnum d = true) c hc
    · simp only [String.toList, List.mem_singleton] at hc
      exact Or.inr (Or.inl hc)
    · rcases hslug step.query c hc with h | h
      · exact Or.inl h
      · exact Or.inr (Or.inl h)
    · exact (by decide :
        ∀ d ∈ ".jpg".toList, isLowerAlnum d = true ∨ d = '-' ∨ d = '.') c hc

/-- Witness for C10 at a concrete query and step. -/
theorem slugify_filename_charset_witness :
    (slugify "https://Example.com/a b?q=1").length ≤ 60
    ∧ (isLowerAlnum 'g' = true ∨ 'g' = '-' ∨ 'g' = '.') := by
  refine ⟨(slugify_filename_charset "https://Example.com/a b?q=1" 3 ⟨.act, "google.com"⟩).1, ?_⟩
  exact (slugify_filename_charset "x" 3 ⟨.act, "google.com"⟩).2.2 'g' (by decide)

theorem executeSteps_getElem (sh : StagehandM) (cap : Nat → PageFunction → Option String) :
    ∀ (plan : List PageFunction) (i j : Nat),
      (executeSteps sh cap i plan)[j]? =
        (plan[j]?).map (fun st => invokeStagehand sh st.name st.query) := by
  intro plan
  induction plan with
  | nil => intro i j; simp [executeSteps]
  | cons step rest ih =>
    intro i j
    cases j with
    | zero => simp [executeSteps]
    | succ j => simp [executeSteps, ih (i + 1) j]

theorem executeSteps_length (sh : StagehandM) (cap : Nat → PageFunction → Option String) :
    ∀ (plan : List PageFunction) (i : Nat),
      (executeSteps sh cap i plan).length = plan.length := by
  intro plan
  induction plan with
  | nil => intro i; rfl
  | cons step rest ih => intro i; simp [executeSteps, ih (i + 1)]

/-- C3: `execute` returns exactly one output per plan step, in plan
order; the i-th output is the result of invoking the capability provider on
the i-th step; a provider rejection at a step is caught and serialized as the
JSON error payload for that step only, the loop does not abort, and every
other step's output is unchanged when only the failing step's provider
behaviour differs. -/
theorem execute_trace_spec (sh : StagehandM) (cap : Nat → PageFunction → Option String)
    (plan : List PageFunction) :
    (execute sh cap plan).length = plan.length
    ∧ (∀ (j : Nat), (execute sh cap plan)[j]? =
        (plan[j]?).map (fun (st : PageFunction) => invokeStagehand sh st.name st.query))
    ∧ (∀ (j : Nat) (st : PageFunction) (e : String),
        plan[j]? = some st → shCall sh st.name st.query = .error e →
        (execute sh cap plan)[j]? = some (errorPayload e))
    ∧ (∀ (sh2 : StagehandM) (i : Nat),
        (∀ (j : Nat) (st : PageFunction), j ≠ i → plan[j]? = some st →
          shCall sh2 st.name st.query = shCall sh st.name st.query) →
        ∀ j, j ≠ i → (execute sh2 cap plan)[j]? = (execute sh cap plan)[j]?) := by
  refine ⟨executeSteps_length sh cap plan 0, executeSteps_getElem sh cap plan 0, ?_, ?_⟩
  · intro j st e hst herr
    show (executeSteps sh cap 0 plan)[j]? = some (errorPayload e)
    rw [executeSteps_getElem sh cap plan 0, hst]
    simp [invokeStagehand, herr]
  · intro sh2 i hagree j hj
    show (executeSteps sh2 cap 0 plan)[j]? = (executeSteps sh cap 0 plan)[j]?
    rw [executeSteps_getElem sh cap plan 0, executeSteps_getElem sh2 cap plan 0]
    cases hst : plan[j]? with
    | none => rfl
    | some st =>
      have hsame := hagree j st hj hst
      simp [invokeStagehand, hsame]

/-- Witness for C3: a 3-step plan whose middle (extract) step rejects yields
3 outputs, the middle one the serialized error, the others untouched. -/
theorem execute_trace_spec_witness :
    (execute ⟨fun _ => .ok "OBS", fun _ => .error "boom", fun _ => .ok "ACT"⟩
        (fun _ _ => none)
        [⟨.observe, "a"⟩, ⟨.extract, "b"⟩, ⟨.act, "c"⟩]).length = 3
    ∧ (execute ⟨fun _ => .ok "OBS", fun _ => .error "boom", fun _ => .ok "ACT"⟩
        (fun _ _ => none)
        [⟨.observe, "a"⟩, ⟨.extract, "b"⟩, ⟨.act, "c"⟩])[1]? =
        some (errorPayload "boom") := by
  constructor
  · exact (execute_trace_spec _ _ _).1
  · exact (execute_trace_spec _ _ _).2.2.1 1 ⟨.extract, "b"⟩ "boom" rfl rfl

/-- C4: within a planning session, an `act` tool call leaves the read
cache untouched and only sets the pending-invalidation flag; the next
`observe`/`extract` call — whatever its kind and query — clears the whole
cache before consulting it, so it invokes the capability provider afresh
(and repopulates the cache from empty), even when its own (kind, query) pair
was cached before the act. -/
theorem act_lazy_invalidation (provider : CommandName → String → String)
    (st st2 : CacheState) (q q2 : String) (k : CommandName) :
    stagehandStep provider st .act q =
      ⟨⟨st.cache, true⟩, provider .act q, true⟩
    ∧ (st2.pending = true → (k = CommandName.observe ∨ k = CommandName.extract) →
        stagehandStep provider st2 k q2 =
          ⟨⟨[(cacheKey k q2, provider k q2)], false⟩, provider k q2, true⟩) := by
  constructor
  · rfl
  · intro hp hk
    rcases hk with hk | hk <;> subst hk <;>
      simp [stagehandStep, hp]

/-- Witness for C4: after an act has set the pending flag, an observe for a
query whose result is still sitting in the cache is re-fetched from the
provider, and the act itself had left that stale entry in place. -/
theorem act_lazy_invalidation_witness :
    stagehandStep (fun _ _ => "fresh") ⟨[("observe::x", "old")], false⟩ .act "go" =
      ⟨⟨[("observe::x", "old")], true⟩, "fresh", true⟩
    ∧ stagehandStep (fun _ _ => "fresh") ⟨[("observe::x", "old")], true⟩ .observe "x" =
      ⟨⟨[("observe::x", "fresh")], false⟩, "fresh", true⟩ := by
  constructor
  · exact (act_lazy_invalidation (fun _ _ => "fresh") ⟨[("observe::x", "old")], false⟩
      ⟨[("observe::x", "old")], true⟩ "go" "x" .observe).1
  · exact (act_lazy_invalidation (fun _ _ => "fresh") ⟨[("observe::x", "old")], false⟩
      ⟨[("observe::x", "old")], true⟩ "go" "x" .observe).2 rfl (Or.inl rfl)

theorem stagehandStep_read_miss (provider : CommandName → String → String)
    (st : CacheState) (k : CommandName) (q : String)
    (hk : k = CommandName.observe ∨ k = CommandName.extract)
    (hp : st.pending = false)
    (hmiss : st.cache.lookup (cacheKey k q) = none) :
    stagehandStep provider st k q =
      ⟨⟨(cacheKey k q, provider k q) :: st.cache, false⟩, provider k q, true⟩ := by
  rcases hk with hk | hk <;> subst hk <;> simp [stagehandStep, hp, hmiss]

theorem stagehandStep_read_hit (provider : CommandName → String → String)
    (st : CacheState) (k : CommandName) (q v : String)
    (hk : k = CommandName.observe ∨ k = CommandName.extract)
    (hp : st.pending = false)
    (hhit : st.cache.lookup (cacheKey k q) = some v) :
    stagehandStep provider st k q = ⟨st, v, false⟩ := by
  rcases hk with hk | hk <;> subst hk <;> simp [stagehandStep, hp, hhit]

/-- C5: two consecutive observe/extract tool calls with the same kind and
query and no act in between (pending flag down, key not yet cached) cause
exactly one capability-provider invocation: the first call invokes and
stores the payload, the second is a cache hit returning the identical
payload and leaving the state unchanged. -/
theorem read_cache_single_invocation (provider : CommandName → String → String)
    (st : CacheState) (k : CommandName) (q : String) :
    (k = CommandName.observe ∨ k = CommandName.extract) →
    st.pending = false →
    st.cache.lookup (cacheKey k q) = none →
    (stagehandStep provider st k q).invoked = true
    ∧ (stagehandStep provider st k q).payload = provider k q
    ∧ (stagehandStep provider (stagehandStep provider st k q).state k q).invoked = false
    ∧ (stagehandStep provider (stagehandStep provider st k q).state k q).payload =
        (stagehandStep provider st k q).payload
    ∧ (stagehandStep provider (stagehandStep provider st k q).state k q).state =
        (stagehandStep provider st k q).state := by
  intro hk hp hmiss
  have h1 := stagehandStep_read_miss provider st k q hk hp hmiss
  have hhit : ((stagehandStep provider st k q).state).cache.lookup (cacheKey k q) =
      some (provider k q) := by
    rw [h1]
    simp [List.lookup]
  have hp2 : ((stagehandStep provider st k q).state).pending = false := by rw [h1]
  have h2 := stagehandStep_read_hit provider (stagehandStep provider st k q).state k q
    (provider k q) hk hp2 hhit
  rw [h2, h1]
  simp

/-- Witness for C5 at a concrete provider, kind and query. -/
theorem read_cache_single_invocation_witness :
    (stagehandStep (fun _ q => "price is " ++ q) ⟨[], false⟩ .extract "42").invoked = true
    ∧ (stagehandStep (fun _ q => "price is " ++ q) ⟨[], false⟩ .extract "42").payload =
        "price is 42"
    ∧ (stagehandStep (fun _ q => "price is " ++ q)
        (stagehandStep (fun _ q => "price is " ++ q) ⟨[], false⟩ .extract "42").state
        .extract "42").invoked = false
    ∧ (stagehandStep (fun _ q => "price is " ++ q)
        (stagehandStep (fun _ q => "price is " ++ q) ⟨[], false⟩ .extract "42").state
        .extract "42").payload =
        (stagehandStep (fun _ q => "price is " ++ q) ⟨[], false⟩ .extract "42").payload := by
  have h := read_cache_single_invocation (fun _ q => "price is " ++ q) ⟨[], false⟩
    .extract "42" (Or.inr rfl) rfl rfl
  exact ⟨h.1, h.2.1, h.2.2.1, h.2.2.2.1⟩

/-- Spec-side characterization (stated from the claim, for comparison with
`validatePlan`): the top-level value is rejected exactly when it is
null/undefined, not an object, or lacks an array-valued `plan` field. -/
def specShapeInvalid : JValue → Bool
  | .null => true
  | .undefined => true
  | .obj fs => !jIsArray (jGet (.obj fs) "plan")
  | .arr its => !jIsArray (jGet (.arr its) "plan")
  | _ => true

/-- Spec-side characterization (stated from the claim): a plan element is
rejected exactly when it is not an object, lacks a non-empty string `query`,
or carries a `name` that is neither canonical nor normalizable. -/
def specStepInvalid (s : JValue) : Bool :=
  !(jTruthy s && jTypeofObject s)
  || (match jGet s "query" with
      | .str qs => qs == ""
      | _ => true)
  || (match jGet s "name" with
      | .str ns => !(ns == "observe" || ns == "extract" || ns == "act")
          && (normalizeCommandName ns).isNone
      | _ => true)

theorem specShapeInvalid_eq (raw : JValue) :
    specShapeInvalid raw =
      !(jTruthy raw && jTypeofObject raw && jIsArray (jGet raw "plan")) := by
  cases raw with
  | undefined => rfl
  | null => rfl
  | bool b => cases b <;> rfl
  | num n => simp [specShapeInvalid, jTruthy, jTypeofObject]
  | str t => simp [specShapeInvalid, jTruthy, jTypeofObject]
  | arr its => simp [specShapeInvalid, jTruthy, jTypeofObject, jGet, jIsArray]
  | obj fs => simp [specShapeInvalid, jTruthy, jTypeofObject]

theorem parseCommand_none_iff (ns : String) :
    parseCommand ns = none ↔ ¬(ns = "observe" ∨ ns = "extract" ∨ ns = "act") := by
  unfold parseCommand
  split_ifs with h1 h2 h3 <;> simp_all

theorem parseCommand_beq_of_some (ns : String) (k : CommandName)
    (h : parseCommand ns = some k) :
    (ns == "observe" || ns == "extract" || ns == "act") = true := by
  unfold parseCommand at h
  split_ifs at h with h1 h2 h3 <;> simp_all

theorem parseCommand_beq_of_none (ns : String) (h : parseCommand ns = none) :
    (ns == "observe" || ns == "extract" || ns == "act") = false := by
  rw [parseCommand_none_iff] at h
  push_neg at h
  simp [h.1, h.2.1, h.2.2]

theorem validateStep_cases (idx : Nat) (s : JValue) :
    (validateStep idx s = .error (.invalidStep idx) ∧ specStepInvalid s = true)
    ∨ (∃ p, validateStep idx s = .ok p ∧ p.query ≠ "" ∧ specStepInvalid s = false) := by
  unfold validateStep specStepInvalid
  cases hx : (jTruthy s && jTypeofObject s) with
  | false => left; simp [hx]
  | true =>
    simp only [hx, Bool.not_true, Bool.false_or]
    cases hq : jGet s "query" with
    | str qs =>
      by_cases hqe : qs = ""
      · left; simp [hqe]
      · simp only [if_neg hqe, beq_iff_eq, hqe]
        cases hn : jGet s "name" with
        | str ns =>
          cases hpc : parseCommand ns with
          | some k =>
            right
            refine ⟨⟨k, qs⟩, ?_, ?_, ?_⟩
            · simp [hpc]
            · exact hqe
            · simp [parseCommand_beq_of_some ns k hpc, hqe]
          | none =>
            cases hnm : normalizeCommandName ns with
            | some k =>
              right
              refine ⟨⟨k, qs⟩, ?_, ?_, ?_⟩
              · simp [hpc, hnm]
              · exact hqe
              · simp [hnm, hqe]
            | none =>
              left
              refine ⟨?_, ?_⟩
              · simp [hpc, hnm]
              · simp [parseCommand_beq_of_none ns hpc, hnm]
        | undefined => left; simp
        | null => left; simp
        | bool b => left; simp
        | num n => left; simp
        | arr its => left; simp
        | obj fs => left; simp
    | undefined => left; simp
    | null => left; simp
    | bool b => left; simp
    | num n => left; simp
    | arr its => left; simp
    | obj fs => left; simp

theorem validateSteps_error_iff :
    ∀ (items : List JValue) (idx : Nat) (e : PlanError),
      validateSteps idx items = .error e ↔
        ∃ (k : Nat) (s : JValue), e = .invalidStep (idx + k) ∧ items[k]? = some s ∧
          specStepInvalid s = true ∧
          (∀ (j : Nat) (t : JValue), j < k → items[j]? = some t →
            specStepInvalid t = false) := by
  intro items
  induction items with
  | nil =>
    intro idx e
    simp [validateSteps]
  | cons s rest ih =>
    intro idx e
    rcases validateStep_cases idx s with ⟨herr, hbad⟩ | ⟨p, hok, hq, hgood⟩
    · rw [validateSteps, herr]
      simp only [bind, Except.bind]
      constructor
      · intro he
        have he2 : e = .invalidStep idx := by
          cases he
          rfl
        refine ⟨0, s, by simpa using he2, by simp, hbad, ?_⟩
        intro j t hj
        omega
      · rintro ⟨k, t, he2, hkt, hbad2, hearlier⟩
        cases k with
        | zero =>
          have hts : t = s := by
            have := hkt
            simp at this
            exact this.symm
          subst hts
          simp [he2]
        | succ k =>
          have hzero := hearlier 0 s (by omega) (by simp)
          rw [hzero] at hbad
          cases hbad
    · rw [validateSteps, hok]
      simp only [bind, Except.bind]
      cases hrest : validateSteps (idx + 1) rest with
      | error e2 =>
        rw [ih (idx + 1) e2] at hrest
        obtain ⟨k, t, he2, hkt, hbad2, hearlier⟩ := hrest
        constructor
        · intro he
          have : e = e2 := by cases he; rfl
          subst this
          refine ⟨k + 1, t, by simpa [Nat.add_assoc, Nat.add_comm 1 k] using he2, by simpa using hkt,
            hbad2, ?_⟩
          intro j u hj hju
          cases j with
          | zero =>
            have hus : u = s := by
              have := hju
              simp at this
              exact this.symm
            subst hus
            exact hgood
          | succ j =>
            exact hearlier j u (by omega) (by simpa using hju)
        · rintro ⟨k2, u, he3, hku, hbad3, hearlier2⟩
          cases k2 with
          | zero =>
            have hus : u = s := by
              have := hku
              simp at this
              exact this.symm
            subst hus
            rw [hgood] at hbad3
            cases hbad3
          | succ k2 =>
            have hju : rest[k2]? = some u := by
              have := hku
              simpa using this
            have hkk : k = k2 := by
              rcases Nat.lt_trichotomy k k2 with hlt | heq | hgt
              · have hg := hearlier2 (k + 1) t (by omega) (by simpa using hkt)
                rw [hg] at hbad2
                cases hbad2
              · exact heq
              · have hg := hearlier k2 u hgt hju
                rw [hg] at hbad3
                cases hbad3
            subst hkk
            rw [he2, he3]
            have harith : idx + 1 + k = idx + (k + 1) := by omega
            rw [harith]
      | ok ps =>
        constructor
        · intro he
          cases he
        · rintro ⟨k, u, he3, hku, hbad3, hearlier2⟩
          cases k with
          | zero =>
            have hus : u = s := by
              have := hku
              simp at this
              exact this.symm
            subst hus
            rw [hgood] at hbad3
            cases hbad3
          | succ k =>
            have hju : rest[k]? = some u := by simpa using hku
            have : validateSteps (idx + 1) rest = .error (.invalidStep (idx + 1 + k)) := by
              rw [ih]
              refine ⟨k, u, rfl, hju, hbad3, ?_⟩
              intro j t hj hjt
              exact hearlier2 (j + 1) t (by omega) (by simpa using hjt)
            rw [this] at hrest
            cases hrest

theorem validateSteps_ok_post :
    ∀ (items : List JValue) (idx : Nat) (ps : List PageFunction),
      validateSteps idx items = .ok ps → ∀ p ∈ ps, p.query ≠ "" := by
  intro items
  induction items with
  | nil =>
    intro idx ps h p hp
    rw [validateSteps] at h
    cases h
    cases hp
  | cons s rest ih =>
    intro idx ps h p hp
    rcases validateStep_cases idx s with ⟨herr, _⟩ | ⟨p0, hok, hq0, _⟩
    · rw [validateSteps, herr] at h
      cases h
    · rw [validateSteps, hok] at h
      simp only [bind, Except.bind] at h
      cases hrest : validateSteps (idx + 1) rest with
      | error e2 => rw [hrest] at h; cases h
      | ok ps2 =>
        rw [hrest] at h
        cases h
        rw [List.mem_cons] at hp
        rcases hp with hp | hp
        · rw [hp]; exact hq0
        · exact ih (idx + 1) ps2 hrest p hp

/-- C7: `validatePlan` raises the plan-shape error exactly when the
top-level value is null/undefined, not an object, or lacks an array-valued
`plan` field; it raises the step error with offending index `i` exactly when
the `i`-th element of the plan array is the first one that is not an object,
lacks a non-empty string `query`, or carries a name that is neither canonical
nor normalizable; and on success every returned step has a canonical name and
a non-empty query. -/
theorem validatePlan_spec (raw : JValue) :
    (validatePlan raw = .error .invalidShape ↔ specShapeInvalid raw = true)
    ∧ (∀ (items : List JValue), jGet raw "plan" = .arr items →
        specShapeInvalid raw = false →
        ∀ (i : Nat), (validatePlan raw = .error (.invalidStep i) ↔
          ∃ (s : JValue), items[i]? = some s ∧ specStepInvalid s = true ∧
            ∀ (j : Nat) (t : JValue), j < i → items[j]? = some t →
              specStepInvalid t = false))
    ∧ (∀ (ps : List PageFunction), validatePlan raw = .ok ps →
        ∀ p ∈ ps, (p.name = CommandName.observe ∨ p.name = CommandName.extract ∨
          p.name = CommandName.act) ∧ p.query ≠ "") := by
  have hsh := specShapeInvalid_eq raw
  cases hS : specShapeInvalid raw with
  | true =>
    have hcond : (jTruthy raw && jTypeofObject raw && jIsArray (jGet raw "plan")) = false := by
      rw [hS] at hsh
      cases hx : (jTruthy raw && jTypeofObject raw && jIsArray (jGet raw "plan"))
      · rfl
      · rw [hx] at hsh; cases hsh
    have hvp : validatePlan raw = .error .invalidShape := by
      rw [validatePlan, hcond]
      rfl
    refine ⟨by simp [hvp], ?_, ?_⟩
    · intro items _ hfalse
      simp [hS] at hfalse
    · intro ps hok
      rw [hvp] at hok
      cases hok
  | false =>
    have hcond : (jTruthy raw && jTypeofObject raw && jIsArray (jGet raw "plan")) = true := by
      rw [hS] at hsh
      cases hx : (jTruthy raw && jTypeofObject raw && jIsArray (jGet raw "plan"))
      · rw [hx] at hsh; cases hsh
      · rfl
    have harr : jIsArray (jGet raw "plan") = true := by
      rcases Bool.and_eq_true_iff.mp hcond with ⟨_, h2⟩
      exact h2
    obtain ⟨items0, hitems0⟩ : ∃ its, jGet raw "plan" = .arr its := by
      cases hj : jGet raw "plan" <;> rw [hj] at harr <;> simp [jIsArray] at harr
      · rename_i its; exact ⟨its, rfl⟩
    have hvp : validatePlan raw = validateSteps 0 items0 := by
      rw [validatePlan, hcond]
      simp only [Bool.not_true, Bool.false_eq_true, if_false]
      rw [hitems0]
    refine ⟨?_, ?_, ?_⟩
    · rw [hvp]
      constructor
      · intro he
        rw [validateSteps_error_iff] at he
        obtain ⟨k, s, hks, _⟩ := he
        cases hks
      · intro ht
        cases ht
    · intro items hitems hfalse i
      have hii : items = items0 := by
        rw [hitems0] at hitems
        cases hitems
        rfl
      subst hii
      rw [hvp, validateSteps_error_iff]
      constructor
      · rintro ⟨k, s, hks, hkt, hbad, hearlier⟩
        have hki : k = i := by
          have : PlanError.invalidStep i = PlanError.invalidStep (0 + k) := hks
          cases this
          omega
        subst hki
        exact ⟨s, hkt, hbad, hearlier⟩
      · rintro ⟨s, hit, hbad, hearlier⟩
        exact ⟨i, s, by rw [Nat.zero_add], hit, hbad, hearlier⟩
    · intro ps hok p hp
      constructor
      · cases p with
        | mk nm q => cases nm <;> simp
      · rw [hvp] at hok
        exact validateSteps_ok_post items0 0 ps hok p hp

/-- Witness for C7: a two-element plan array whose first step normalizes
(`"click it"` → act) and whose second element is a number fails with the
step error at index 1. -/
theorem validatePlan_spec_witness :
    validatePlan (.obj [("plan", .arr
      [.obj [("name", .str "click it"), ("query", .str "the button")], .num 5])]) =
      .error (.invalidStep 1) := by
  have h := (validatePlan_spec (.obj [("plan", .arr
    [.obj [("name", .str "click it"), ("query", .str "the button")], .num 5])])).2.1
    [.obj [("name", .str "click it"), ("query", .str "the button")], .num 5]
    (by rfl) (by decide) 1
  refine h.mpr ⟨.num 5, by rfl, by decide, ?_⟩
  intro j t hj hjt
  have hj0 : j = 0 := by omega
  subst hj0
  have h0 := hjt
  simp only [List.getElem?_cons_zero, Option.some.injEq] at h0
  rw [← h0]
  decide

/-- C1, counterexample: the claim says non-empty unparseable free-form
text is appended to the transcript and the loop continues; in the code the
`safeParsePlan` throw propagates and `plan` fails right there: with a model
that always answers non-empty unparseable text, the outcome is the parse
error after round one, not sixteen rounds of looping. -/
theorem plan_text_append_cex :
    planModel (fun _ => none) (fun _ _ => "")
      (fun _ => some ⟨some "thinking aloud about the task", []⟩) "task" = .parseError
    ∧ planModel (fun _ => none) (fun _ _ => "")
      (fun _ => some ⟨some "thinking aloud about the task", []⟩) "task" ≠ .exhausted := by
  exact ⟨by decide, by decide⟩

/-- C1, amended: if during negotiation the model returns non-empty
free-form text with no tool calls and both parse attempts fail, `plan`
propagates the parse error and the call fails at that point; only an empty
(or absent) text response is appended as an assistant transcript entry with
the loop continuing to the next round. -/
theorem plan_text_parse_failure (parse : String → Option JValue)
    (provider : CommandName → String → String) (oracle : Nat → Option ModelMsg)
    (fuel iter : Nat) (st : CacheState) (msgs : List Msg) (m : ModelMsg) (c : String) :
    (oracle iter = some m → m.toolCalls = [] → m.content = some c → trimStr c ≠ "" →
      parse c = none →
      planGo parse provider oracle (fuel + 1) iter st msgs = .parseError)
    ∧ (oracle iter = some m → m.toolCalls = [] → m.content = some c → trimStr c = "" →
      planGo parse provider oracle (fuel + 1) iter st msgs =
        planGo parse provider oracle fuel (iter + 1) st (msgs ++ [Msg.assistantText c])) := by
  constructor
  · intro ho htc hc htrim hparse
    rw [planGo, ho]
    simp [htc, hc, htrim, hparse]
  · intro ho htc hc htrim
    rw [planGo, ho]
    simp [htc, hc, htrim]

/-- Witness for the amended C1 at a concrete unparseable-text response. -/
theorem plan_text_parse_failure_witness :
    planGo (fun _ => none) (fun _ _ => "")
      (fun _ => some ⟨some "no json here", []⟩) 16 0 ⟨[], false⟩ [] = .parseError := by
  exact (plan_text_parse_failure (fun _ => none) (fun _ _ => "")
    (fun _ => some ⟨some "no json here", []⟩) 15 0 ⟨[], false⟩ []
    ⟨some "no json here", []⟩ "no json here").1 rfl rfl rfl (by decide) rfl

/-- C6, counterexample: the claim quantifies over every response
sequence in which no round finalizes a plan; a sequence of non-empty
unparseable text responses never finalizes, yet `plan` ends with the parse
error in round one instead of `PlanningExhausted` after round 16. -/
theorem plan_exhaustion_cex :
    planModel (fun _ => none) (fun _ _ => "")
      (fun _ => some ⟨some "still planning the approach", []⟩) "t" = .parseError
    ∧ planModel (fun _ => none) (fun _ _ => "")
      (fun _ => some ⟨some "still planning the approach", []⟩) "t" ≠ .exhausted := by
  exact ⟨by decide, by decide⟩

theorem processCalls_no_finalize (provider : CommandName → String → String) :
    ∀ (tcs : List ToolCall) (st : CacheState) (msgs : List Msg),
      (∀ tc ∈ tcs, tc.name ≠ "finalize_plan") →
      ∃ st1 msgs1, processCalls provider st msgs tcs = .next st1 msgs1 := by
  intro tcs
  induction tcs with
  | nil => intro st msgs _; exact ⟨st, msgs, rfl⟩
  | cons tc rest ih =>
    intro st msgs h
    have hname : tc.name ≠ "finalize_plan" := h tc (List.mem_cons_self tc rest)
    rw [processCalls]
    simp only [if_neg hname]
    cases hpc : parseCommand (toLowerStr tc.name) with
    | none => exact ih _ _ (fun tc2 htc2 => h tc2 (List.mem_cons_of_mem tc htc2))
    | some k => exact ih _ _ (fun tc2 htc2 => h tc2 (List.mem_cons_of_mem tc htc2))

theorem planGo_all_rounds_exhausted (parse : String → Option JValue)
    (provider : CommandName → String → String) (oracle : Nat → Option ModelMsg) :
    ∀ (fuel iter : Nat) (st : CacheState) (msgs : List Msg),
      (∀ i, iter ≤ i → i < iter + fuel →
        ∃ m, oracle i = some m ∧
          ((m.toolCalls ≠ [] ∧ ∀ tc ∈ m.toolCalls, tc.name ≠ "finalize_plan")
            ∨ (m.toolCalls = [] ∧
                (m.content = none ∨ ∃ c, m.content = some c ∧ trimStr c = "")))) →
      planGo parse provider oracle fuel iter st msgs = .exhausted := by
  intro fuel
  induction fuel with
  | zero => intro iter st msgs _; rfl
  | succ fuel ih =>
    intro iter st msgs h
    obtain ⟨m, hm, hcase⟩ := h iter (Nat.le_refl iter) (by omega)
    rw [planGo, hm]
    rcases hcase with ⟨hne, hnofin⟩ | ⟨hempty, hcontent⟩
    · have hne2 : m.toolCalls.isEmpty = false := by
        cases htc : m.toolCalls
        · exact absurd htc hne
        · rfl
      obtain ⟨st1, msgs1, hp⟩ := processCalls_no_finalize provider m.toolCalls st
        (msgs ++ [Msg.assistantCalls m.toolCalls]) hnofin
      simp only [hne2, Bool.not_false, if_true, hp]
      exact ih (iter + 1) st1 msgs1 (fun i h1 h2 => h i (by omega) (by omega))
    · rcases hcontent with hnone | ⟨c, hc, htrim⟩
      · simp only [hempty, List.isEmpty_nil, Bool.not_true, Bool.false_eq_true, if_false, hnone]
        exact ih (iter + 1) st (msgs ++ [Msg.assistantText ""])
          (fun i h1 h2 => h i (by omega) (by omega))
      · simp only [hempty, List.isEmpty_nil, Bool.not_true, Bool.false_eq_true, if_false, hc,
          htrim]
        simp only [ne_eq, not_true_eq_false, if_false]
        exact ih (iter + 1) st (msgs ++ [Msg.assistantText c])
          (fun i h1 h2 => h i (by omega) (by omega))

/-- C6, amended: for every sequence of model responses in which each of
the first 16 rounds either issues tool calls none of which is
`finalize_plan`, or returns empty/absent free-form text, `plan` runs exactly
its 16-round budget and then fails with the planning-exhausted error. -/
theorem plan_16_rounds_exhausted (parse : String → Option JValue)
    (provider : CommandName → String → String) (oracle : Nat → Option ModelMsg)
    (task : String) :
    (∀ i, i < 16 →
      ∃ m, oracle i = some m ∧
        ((m.toolCalls ≠ [] ∧ ∀ tc ∈ m.toolCalls, tc.name ≠ "finalize_plan")
          ∨ (m.toolCalls = [] ∧
              (m.content = none ∨ ∃ c, m.content = some c ∧ trimStr c = "")))) →
    planModel parse provider oracle task = .exhausted := by
  intro h
  exact planGo_all_rounds_exhausted parse provider oracle 16 0 ⟨[], false⟩ _
    (fun i h1 h2 => h i (by omega))

/-- Witness for the amended C6: a model that always answers with an absent
message body exhausts the 16-round budget. -/
theorem plan_16_rounds_exhausted_witness :
    planModel (fun _ => none) (fun _ _ => "") (fun _ => some ⟨none, []⟩) "find the news"
      = .exhausted := by
  exact plan_16_rounds_exhausted (fun _ => none) (fun _ _ => "")
    (fun _ => some ⟨none, []⟩) "find the news"
    (fun i hi => ⟨⟨none, []⟩, rfl, Or.inr ⟨rfl, Or.inl rfl⟩⟩)

/-- C2, counterexample: the claim says the synthesizer scans Extract
steps most-recent-first and returns the first candidate passing the tests;
in the code only the single most recent Extract step is examined.  Here the
last Extract output fails the tests while the earlier one passes them, yet
the function returns the final fallback sentence, not the earlier cleaned
output. -/
theorem synthesize_earlier_extract_cex :
    meaningfulClean (cleanOutput "Hello brave new") = true
    ∧ meaningfulClean (cleanOutput "short") = false
    ∧ extractFinalOutput [⟨.extract, "a"⟩, ⟨.extract, "b"⟩] ["Hello brave new", "short"]
        = fallbackSentence
    ∧ extractFinalOutput [⟨.extract, "a"⟩, ⟨.extract, "b"⟩] ["Hello brave new", "short"]
        ≠ cleanOutput "Hello brave new" := by
  exact ⟨by decide, by decide, by decide, by decide⟩

/-- C2, amended: `extractFinalOutput` examines only the most recent
Extract step: when its cleaned output passes the meaningfulness tests
(non-empty, length greater than 10, no not-found marker) that cleaned output
is returned; otherwise — and when there is no Extract step at all — the
fallback scan over all raw outputs decides the result.  Earlier Extract
steps are never consulted. -/
theorem synthesize_last_extract_only (plan : List PageFunction) (outputs : List String) :
    (((plan.zip outputs).filter (fun p => p.1.name = .extract)).reverse = [] →
      extractFinalOutput plan outputs = fallbackOutput outputs)
    ∧ (∀ (c : PageFunction × String) (rest : List (PageFunction × String)),
        ((plan.zip outputs).filter (fun p => p.1.name = .extract)).reverse = c :: rest →
        (meaningfulClean (cleanOutput c.2) = true →
          extractFinalOutput plan outputs = cleanOutput c.2)
        ∧ (meaningfulClean (cleanOutput c.2) = false →
          extractFinalOutput plan outputs = fallbackOutput outputs)) := by
  constructor
  · intro h
    simp only [extractFinalOutput]
    rw [h]
  · intro c rest h
    constructor
    · intro hm
      simp only [extractFinalOutput]
      rw [h]
      simp [hm]
    · intro hm
      simp only [extractFinalOutput]
      rw [h]
      simp [hm]

/-- Witness for the amended C2: a two-step run whose final Extract output
carries a `Headline:` prefix is returned cleaned. -/
theorem synthesize_last_extract_only_witness :
    extractFinalOutput [⟨.act, "go"⟩, ⟨.extract, "headline"⟩]
      ["NAVIGATED(x)", "Headline: Fresh results arrived today"]
      = "Fresh results arrived today" := by
  have h := ((synthesize_last_extract_only [⟨.act, "go"⟩, ⟨.extract, "headline"⟩]
    ["NAVIGATED(x)", "Headline: Fresh results arrived today"]).2
    (⟨.extract, "headline"⟩, "Headline: Fresh results arrived today") [] (by decide)).1
    (by decide)
  rw [h]
  decide
